import Mathlib

/-!
Verification of the structural re-identification risk engine (`src/main.py`).

The Python script operates on networkx graphs.  We embed the parts the
claims need:

* a directed graph (networkx `DiGraph`) as a list of nodes and a list of
  directed edges (both duplicate-free in any well-formed graph);
* `perturbation` with the random draws of `random.choice` made explicit:
  the deletion phase consumes a list of edge indices, the re-addition
  loop consumes a list of node-index pairs; exhausting the supply of
  draws models non-termination and yields `none`;
* `create_neighbor_list`, `create_degree_list`,
  `create_equivalence_class`, `create_buckets` (Python dicts become
  association lists that preserve insertion order, Python sets become
  duplicate-free lists);
* `create_subgraph` building an undirected networkx `Graph`, embedded
  with edges normalised to ordered pairs.
-/

namespace DataProtection

/-- A networkx `DiGraph`: node list and directed edge list.  In any graph
produced by networkx both lists are duplicate-free and edge endpoints are
nodes; theorems take those facts as hypotheses where they matter. -/
structure DiGraph where
  nodes : List Nat
  edges : List (Nat × Nat)
  deriving DecidableEq

/-- networkx `g.degree(n)` on a `DiGraph`: in-degree plus out-degree. -/
def degree (g : DiGraph) (n : Nat) : Nat :=
  (g.edges.filter (fun e => e.1 == n)).length +
    (g.edges.filter (fun e => e.2 == n)).length

/-- networkx `g[n]` on a `DiGraph`: the direct successors of `n`
(the `e.2` of every edge `e` leaving `n`). -/
def succsL (g : DiGraph) (n : Nat) : List Nat :=
  (g.edges.filter (fun e => e.1 == n)).map Prod.snd

/-- `create_neighbor_list(g, root_node, iteration_number)`: start from the
set `{root_node}` and, `iteration_number` times, replace the frontier with
the set of direct successors of its members.  The Python set becomes a
duplicate-free list (`dedup` keeps the first occurrence; set iteration
order is arbitrary in Python and nothing downstream depends on it). -/
def create_neighbor_list (g : DiGraph) (root_node : Nat) : Nat → List Nat
  | 0 => [root_node]
  | iteration_number + 1 =>
      ((create_neighbor_list g root_node iteration_number).flatMap (succsL g)).dedup

/-- The per-node body of `create_degree_list`: `[1]` at level 0, otherwise
the ascending sort of the degrees of the level-`(i-1)` frontier. -/
def signatureAt (g : DiGraph) (i : Nat) (n : Nat) : List Nat :=
  if i = 0 then [1]
  else List.insertionSort (· ≤ ·) ((create_neighbor_list g n (i - 1)).map (degree g))

/-- `create_degree_list(g, i)`: the dict mapping every node of `g` to its
level-`i` signature, as an insertion-ordered association list. -/
def create_degree_list (g : DiGraph) (i : Nat) : List (Nat × List Nat) :=
  g.nodes.map (fun n => (n, signatureAt g i n))

/-- The claim's reading of the level-`i` signature (`i > 0`): the
ascending-sorted OUT-degrees of the level-`(i-1)` frontier.  Stated only
to compare with `signatureAt`, which uses `g.degree` (in plus out). -/
def claimSignatureOut (g : DiGraph) (i : Nat) (n : Nat) : List Nat :=
  List.insertionSort (· ≤ ·)
    ((create_neighbor_list g n (i - 1)).map
      (fun n2 => (g.edges.filter (fun e => e.1 == n2)).length))

/-- One step of `create_equivalence_class`: Python
`equivalence_class.setdefault(tuple(v), []).append(key)` in effect —
append `key` to the class of signature `sig`, creating the class at the
end of the dict if it is new. -/
def insertEq (acc : List (List Nat × List Nat)) (key : Nat) (sig : List Nat) :
    List (List Nat × List Nat) :=
  if sig ∈ acc.map Prod.fst then
    acc.map (fun c => if c.1 = sig then (c.1, c.2 ++ [key]) else c)
  else acc ++ [(sig, [key])]

/-- `create_equivalence_class(equivalence_calc_list)`: group the keys of
the node→signature dict by equal signature, preserving insertion order. -/
def create_equivalence_class (equivalence_calc_list : List (Nat × List Nat)) :
    List (List Nat × List Nat) :=
  equivalence_calc_list.foldl (fun acc kv => insertEq acc kv.1 kv.2) []

/-- The five fixed candidate-set-size buckets of `create_buckets`. -/
inductive Bucket
  | b1
  | b2_4
  | b5_10
  | b11_20
  | b21_inf
  deriving DecidableEq

/-- The if/elif chain of `create_buckets` choosing a bucket from a class
size. -/
def bucketOf (candi_set_size : Nat) : Bucket :=
  if candi_set_size = 1 then .b1
  else if 2 ≤ candi_set_size ∧ candi_set_size ≤ 4 then .b2_4
  else if 5 ≤ candi_set_size ∧ candi_set_size ≤ 10 then .b5_10
  else if 11 ≤ candi_set_size ∧ candi_set_size ≤ 20 then .b11_20
  else .b21_inf

/-- The dict keys of `can_set_size`, in their textual order. -/
def allBuckets : List Bucket := [.b1, .b2_4, .b5_10, .b11_20, .b21_inf]

/-- Append one class size to its bucket's list. -/
def bucketAdd (f : Bucket → List Nat) (s : Nat) : Bucket → List Nat :=
  fun b => if b = bucketOf s then f b ++ [s] else f b

/-- The `can_set_size` dict of `create_buckets`: for each bucket, the
sizes of the equivalence classes falling into it, in class order. -/
def can_set_size (m : List (Nat × List Nat)) : Bucket → List Nat :=
  (create_equivalence_class m).foldl (fun f c => bucketAdd f c.2.length)
    (fun _ => [])

/-- Sum of all bucketed class sizes (the numerators printed by
`create_buckets`, summed over the five buckets). -/
def bucketTotal (m : List (Nat × List Nat)) : Nat :=
  (allBuckets.map (fun b => (can_set_size m b).sum)).sum

/-- Python float division `a / b`: raises `ZeroDivisionError` when
`b = 0`, modelled as `none`. -/
def pyFloatDiv (a b : ℚ) : Option ℚ := if b = 0 then none else some (a / b)

/-- The reporting loop of `create_buckets`: one `sum(v)/total` fraction
per bucket, in bucket order; `none` as soon as a division raises. -/
def bucketReport (f : Bucket → List Nat) (total_node_number : Nat) :
    List Bucket → Option (List (Bucket × ℚ))
  | [] => some []
  | b :: bs =>
    match pyFloatDiv ((f b).sum : Nat) (total_node_number : Nat),
        bucketReport f total_node_number bs with
    | some q, some rest => some ((b, q) :: rest)
    | _, _ => none

/-- `create_buckets(equivalence_calc_list, _, total_node_number, _)`:
build the equivalence classes, bucket their sizes, and emit the fraction
of nodes per bucket.  The `iteration_number` and `query_type` arguments
only change the printed label text and are omitted. -/
def create_buckets (equivalence_calc_list : List (Nat × List Nat))
    (total_node_number : Nat) : Option (List (Bucket × ℚ)) :=
  bucketReport (can_set_size equivalence_calc_list) total_node_number allBuckets

/-- `random.choice(l)` with the random draw made explicit as an index
`i`; any uniform draw is some `i % l.length`.  On an empty list Python
raises; that situation is unreachable in the runs the theorems speak
about, and the default is returned instead. -/
def choice {α : Type} (l : List α) (i : Nat) (dflt : α) : α :=
  l.getD (i % l.length) dflt

/-- The deletion phase of `perturbation`: `edge_number_deletion` times,
draw a random existing edge, remove it, and record it in
`deleted_edges` (in draw order).  Returns the remaining edge list and
the deleted list. -/
def deletionPhase : List (Nat × Nat) → Nat → List Nat →
    List (Nat × Nat) × List (Nat × Nat)
  | es, 0, _ => (es, [])
  | es, k + 1, idxs =>
    let e := choice es (idxs.headD 0) (0, 0)
    let r := deletionPhase (es.erase e) k idxs.tail
    (r.1, e :: r.2)

/-- networkx `g.has_edge(u, v)` on the current edge list. -/
def hasEdge (es : List (Nat × Nat)) (first_node second_node : Nat) : Bool :=
  es.contains (first_node, second_node)

/-- Python `x == y` where `x` is a `bool` and `y` an edge 2-tuple: the
operands have different, non-coercible types, so the comparison is always
`False` (the tuple's components are ints, never bools). -/
def pyEqBoolPair (b : Bool) (e : Nat × Nat) : Bool := false

/-- Python `x in l` for a `bool` `x` and a list `l` of edge 2-tuples:
membership by `==`, hence always `False`.  This embeds the source's
`g.has_edge(first_node, second_node) in deleted_edges` literally. -/
def pyMemBoolPairList (b : Bool) (l : List (Nat × Nat)) : Bool :=
  l.any (pyEqBoolPair b)

/-- networkx `g.add_edge(u, v)`: a no-op when the edge is already
present (both endpoints are already nodes in every call the code makes,
so only the edge list is tracked here). -/
def add_edge (es : List (Nat × Nat)) (first_node second_node : Nat) :
    List (Nat × Nat) :=
  if es.contains (first_node, second_node) then es
  else es ++ [(first_node, second_node)]

/-- The re-addition `while` loop of `perturbation`.  Each iteration draws
two random nodes (a pair of indices from the supplied stream); the pair
is skipped when the nodes are equal or when
`has_edge(first, second) in deleted_edges` holds (the latter compares a
bool against tuples and never holds); otherwise `add_edge` runs and the
remaining count drops.  An exhausted stream (`none`) models a run of
draws on which the loop has not yet terminated. -/
def readdLoop (nodes : List Nat) : List (Nat × Nat) → List (Nat × Nat) → Nat →
    List (Nat × Nat) → Option (List (Nat × Nat))
  | es, _, 0, _ => some es
  | _, _, _ + 1, [] => none
  | es, deleted_edges, k + 1, (i, j) :: rest =>
    let first_node := choice nodes i 0
    let second_node := choice nodes j 0
    if second_node == first_node ||
        pyMemBoolPairList (hasEdge es first_node second_node) deleted_edges then
      readdLoop nodes es deleted_edges (k + 1) rest
    else
      readdLoop nodes (add_edge es first_node second_node) deleted_edges k rest

/-- `int(len(g.edges()) * percentage)` for a non-negative percentage. -/
def edge_number_deletion (edge_count : Nat) (percentage : ℚ) : Nat :=
  ⌊(edge_count : ℚ) * percentage⌋₊

/-- `perturbation(graph, percentage)` with the random draws explicit:
copy the graph, delete `int(|E| * percentage)` random edges, then re-add
the same count through `readdLoop`.  The node list is never touched. -/
def perturbation (graph : DiGraph) (percentage : ℚ) (delChoices : List Nat)
    (pairChoices : List (Nat × Nat)) : Option DiGraph :=
  let d := edge_number_deletion graph.edges.length percentage
  let r := deletionPhase graph.edges d delChoices
  match readdLoop graph.nodes r.1 r.2 d pairChoices with
  | none => none
  | some es => some ⟨graph.nodes, es⟩

/-- A networkx undirected `Graph`: a finite node set and a finite edge
set of pairs normalised so that the smaller endpoint comes first. -/
structure UGraph where
  nodes : Finset Nat
  edges : Finset (Nat × Nat)
  deriving DecidableEq

/-- Normalise an undirected edge `{u, v}` to an ordered pair. -/
def normPair (u v : Nat) : Nat × Nat := if u ≤ v then (u, v) else (v, u)

/-- The empty undirected graph `nx.Graph()`. -/
def UGraph.empty : UGraph := ⟨∅, ∅⟩

/-- networkx `Graph.add_edge(u, v)`: registers both endpoints as nodes
and the undirected edge (idempotent). -/
def UGraph.add_edge (g : UGraph) (u v : Nat) : UGraph :=
  ⟨insert u (insert v g.nodes), insert (normPair u v) g.edges⟩

/-- The loop of `create_subgraph`: add edges from the sequence in order
until `size` have been processed or the sequence ends. -/
def subgraphLoop (gk : UGraph) : List (Nat × Nat) → Nat → UGraph
  | _, 0 => gk
  | [], _ => gk
  | (u, v) :: rest, size + 1 => subgraphLoop (gk.add_edge u v) rest size

/-- `create_subgraph(sub_edge_list, size, root_node)`: an undirected
graph built from the first `size` edges of the BFS edge sequence.  The
`root_node` argument is unused in the source. -/
def create_subgraph (sub_edge_list : List (Nat × Nat)) (size : Nat)
    (root_node : Nat) : UGraph :=
  subgraphLoop UGraph.empty sub_edge_list size

/-- A walk of length exactly `k` along directed edges of `g` from `root`
to its last node.  `ExactWalk g root n k` holds iff `n` is reachable from
`root` by following exactly `k` hops of outgoing adjacency. -/
inductive ExactWalk (g : DiGraph) (root : Nat) : Nat → Nat → Prop
  | base : ExactWalk g root root 0
  | step {m n k : Nat} : ExactWalk g root m k → (m, n) ∈ g.edges →
      ExactWalk g root n (k + 1)

/-! ### Helper lemmas -/

lemma subgraphLoop_eq (l : List (Nat × Nat)) (k : Nat) (gk : UGraph) :
    subgraphLoop gk l k = (l.take k).foldl (fun g e => g.add_edge e.1 e.2) gk := by
  induction l generalizing k gk with
  | nil => cases k <;> simp [subgraphLoop]
  | cons e rest ih =>
    cases k with
    | zero => simp [subgraphLoop]
    | succ k =>
      cases e with
      | mk u v => simp [subgraphLoop, ih]

lemma foldl_add_edge_edges (l : List (Nat × Nat)) (g : UGraph) :
    (l.foldl (fun g2 e => g2.add_edge e.1 e.2) g).edges
      = g.edges ∪ (l.map (fun e => normPair e.1 e.2)).toFinset := by
  induction l generalizing g with
  | nil => simp
  | cons e rest ih =>
    rw [List.foldl_cons, ih]
    ext a
    simp [UGraph.add_edge]

lemma foldl_add_edge_nodes (l : List (Nat × Nat)) (g : UGraph) :
    (l.foldl (fun g2 e => g2.add_edge e.1 e.2) g).nodes
      = g.nodes ∪ (l.flatMap (fun e => [e.1, e.2])).toFinset := by
  induction l generalizing g with
  | nil => simp
  | cons e rest ih =>
    rw [List.foldl_cons, ih]
    ext a
    simp [UGraph.add_edge]

lemma mem_succsL {g : DiGraph} {m n : Nat} : n ∈ succsL g m ↔ (m, n) ∈ g.edges := by
  constructor
  · intro h
    simp only [succsL, List.mem_map] at h
    obtain ⟨⟨a, b⟩, he, rfl⟩ := h
    rw [List.mem_filter] at he
    obtain ⟨he1, he2⟩ := he
    have ha : a = m := by simpa using he2
    subst ha
    exact he1
  · intro h
    exact List.mem_map.mpr ⟨(m, n), List.mem_filter.mpr ⟨h, by simp⟩, rfl⟩

/-! ### Claim theorems -/

/-- C9: `create_subgraph` takes edges from the BFS sequence in order (its
edge set is exactly the normalised first-`size` prefix), so it has at most
`size` edges, and with `size = 0` it is edgeless whatever the sequence. -/
theorem create_subgraph_edge_bound (sub_edge_list : List (Nat × Nat))
    (size root_node : Nat) :
    (create_subgraph sub_edge_list size root_node).edges
        = ((sub_edge_list.take size).map (fun e => normPair e.1 e.2)).toFinset ∧
    (create_subgraph sub_edge_list size root_node).edges.card ≤ size ∧
    (create_subgraph sub_edge_list 0 root_node).edges = ∅ := by
  have h : ∀ s, (create_subgraph sub_edge_list s root_node).edges
      = ((sub_edge_list.take s).map (fun e => normPair e.1 e.2)).toFinset := by
    intro s
    rw [create_subgraph, subgraphLoop_eq, foldl_add_edge_edges]
    simp [UGraph.empty]
  refine ⟨h size, ?_, by rw [h 0]; simp⟩
  rw [h size]
  calc (((sub_edge_list.take size).map (fun e => normPair e.1 e.2)).toFinset).card
      ≤ ((sub_edge_list.take size).map (fun e => normPair e.1 e.2)).length :=
        List.toFinset_card_le _
    _ ≤ size := by simp [List.length_take]

/-- C10: the node set of an extracted subgraph is exactly the endpoints of
the edges taken from the sequence; with `size = 0` or an empty sequence the
result is the completely empty graph — the root is never materialised. -/
theorem create_subgraph_node_set (sub_edge_list : List (Nat × Nat))
    (size root_node : Nat) :
    (create_subgraph sub_edge_list size root_node).nodes
        = ((sub_edge_list.take size).flatMap (fun e => [e.1, e.2])).toFinset ∧
    create_subgraph sub_edge_list 0 root_node = UGraph.empty ∧
    create_subgraph [] size root_node = UGraph.empty := by
  refine ⟨?_, by cases sub_edge_list <;> rfl, by cases size <;> rfl⟩
  rw [create_subgraph, subgraphLoop_eq, foldl_add_edge_nodes]
  simp [UGraph.empty]

/-- C8: membership in the `create_neighbor_list` frontier at hop `k` is
exactly reachability by a walk of length `k` (so earlier hops are not
accumulated), hop 0 gives `[root]`, an empty frontier stays empty, and the
frontier is duplicate-free (a set). -/
theorem create_neighbor_list_exact (g : DiGraph) (root k n : Nat) :
    (n ∈ create_neighbor_list g root k ↔ ExactWalk g root n k) ∧
    create_neighbor_list g root 0 = [root] ∧
    (create_neighbor_list g root k = [] → create_neighbor_list g root (k + 1) = []) ∧
    (create_neighbor_list g root k).Nodup := by
  refine ⟨?_, rfl, ?_, ?_⟩
  · induction k generalizing n with
    | zero =>
      simp only [create_neighbor_list, List.mem_singleton]
      constructor
      · rintro rfl; exact .base
      · rintro h; cases h; rfl
    | succ k ih =>
      simp only [create_neighbor_list, List.mem_dedup, List.mem_flatMap]
      constructor
      · rintro ⟨m, hm, hn⟩
        exact .step ((ih _).mp hm) (mem_succsL.mp hn)
      · intro h
        cases h with
        | step hw he => exact ⟨_, (ih _).mpr hw, mem_succsL.mpr he⟩
  · intro h
    simp only [create_neighbor_list, h]
    rfl
  · cases k with
    | zero => simp [create_neighbor_list]
    | succ k => exact List.nodup_dedup _

/-- Witness for C8: node 2 of the path 0→1→2 is reached by a walk of
length exactly 2, obtained from the computed hop-2 frontier. -/
theorem create_neighbor_list_exact_w :
    ExactWalk ⟨[0, 1, 2], [(0, 1), (1, 2)]⟩ 0 2 2 :=
  (create_neighbor_list_exact ⟨[0, 1, 2], [(0, 1), (1, 2)]⟩ 0 2 2).1.mp (by decide)

/-- C1: evaluation of `perturbation` at a failing input.  On the graph
with nodes `[0,1,2]` and edges `[(0,1),(1,2)]` and fraction `1/2`, the
deletion draw removes `(0,1)` and the re-addition draw picks the node
pair `(1,2)` whose edge already exists: the pair is accepted, `add_edge`
is a no-op, and the result has 1 edge where the input had 2 (the node
list is preserved). -/
theorem perturbation_edge_count_bug :
    perturbation ⟨[0, 1, 2], [(0, 1), (1, 2)]⟩ (1 / 2) [0] [(1, 2)]
        = some ⟨[0, 1, 2], [(1, 2)]⟩ ∧
    ([(1, 2)] : List (Nat × Nat)).length = 1 ∧
    ([(0, 1), (1, 2)] : List (Nat × Nat)).length = 2 := by
  refine ⟨?_, rfl, rfl⟩
  have hd : edge_number_deletion ([(0, 1), (1, 2)] : List (Nat × Nat)).length (1 / 2) = 1 := by
    norm_num [edge_number_deletion]
  simp only [perturbation, hd]
  decide

/-- C3: the re-addition loop accepts a drawn pair whose edge already
exists in the current graph.  With current edges `[(1,2)]`, deleted list
`[(0,1)]` and the drawn node pair `(1,2)`: `has_edge` is `true`, yet the
membership test of that boolean in the deleted-edge list is `false`, so
the pair is not rejected and the loop finishes with the edge list
unchanged. -/
theorem readd_accepts_existing_edge :
    hasEdge [(1, 2)] 1 2 = true ∧
    pyMemBoolPairList (hasEdge [(1, 2)] 1 2) [(0, 1)] = false ∧
    readdLoop [0, 1, 2] [(1, 2)] [(0, 1)] 1 [(1, 2)] = some [(1, 2)] := by
  decide

/-- C2 counterexample: on the directed graph 0→1 at level 1, node 1's
signature computed by the code is `[1]` (total degree of node 1), while
the claim's out-degree reading would give `[0]`. -/
theorem create_degree_list_out_degree_cex :
    signatureAt ⟨[0, 1], [(0, 1)]⟩ 1 1 = [1] ∧
    claimSignatureOut ⟨[0, 1], [(0, 1)]⟩ 1 1 = [0] ∧
    signatureAt ⟨[0, 1], [(0, 1)]⟩ 1 1 ≠ claimSignatureOut ⟨[0, 1], [(0, 1)]⟩ 1 1 := by
  decide

/-- C6 counterexample: on the empty graph, level-0 refinement yields no
equivalence class at all, not exactly one. -/
theorem level0_empty_graph_cex :
    (create_equivalence_class (create_degree_list ⟨[], []⟩ 0)).length ≠ 1 := by
  decide

/-- C7 counterexample: with total node count 0, `create_buckets` hits a
division by zero (`none`), it does not return the all-zero fractions the
claim describes. -/
theorem create_buckets_zero_total_cex :
    create_buckets [] 0 = none ∧
    create_buckets [] 0
      ≠ some [(.b1, 0), (.b2_4, 0), (.b5_10, 0), (.b11_20, 0), (.b21_inf, 0)] := by
  refine ⟨by decide, ?_⟩
  intro h
  rw [(by decide : create_buckets [] 0 = none)] at h
  exact Option.noConfusion h

/-- C7 (amended): for every input mapping, `create_buckets` with total
node count 0 raises `ZeroDivisionError` (modelled as `none`) — the code
has no guard. -/
theorem create_buckets_zero_total_raises (m : List (Nat × List Nat)) :
    create_buckets m 0 = none := by
  simp [create_buckets, bucketReport, pyFloatDiv, allBuckets]

/-! ### Equivalence classes partition their input (C4, C5, C6, C2) -/

lemma insertEq_keys (acc : List (List Nat × List Nat)) (key : Nat) (sig : List Nat) :
    (insertEq acc key sig).map Prod.fst
      = if sig ∈ acc.map Prod.fst then acc.map Prod.fst
        else acc.map Prod.fst ++ [sig] := by
  unfold insertEq
  split
  · rw [List.map_map]
    apply List.map_congr_left
    intro c _
    by_cases h : c.1 = sig <;> simp [h]
  · simp

lemma insertEq_keys_nodup {acc : List (List Nat × List Nat)} {key : Nat} {sig : List Nat}
    (h : (acc.map Prod.fst).Nodup) :
    ((insertEq acc key sig).map Prod.fst).Nodup := by
  rw [insertEq_keys]
  split
  · exact h
  · next hmem => simp [List.nodup_append, h, hmem]

lemma map_updEq_of_not_mem (key : Nat) (sig : List Nat)
    (l : List (List Nat × List Nat)) (h : sig ∉ l.map Prod.fst) :
    l.map (fun c => if c.1 = sig then (c.1, c.2 ++ [key]) else c) = l := by
  induction l with
  | nil => rfl
  | cons c t ih =>
    rw [List.map_cons, List.mem_cons] at h
    push_neg at h
    rw [List.map_cons, if_neg (fun hc => h.1 hc.symm), ih h.2]

lemma flatten_map_upd (key : Nat) (sig : List Nat) :
    ∀ l : List (List Nat × List Nat), (l.map Prod.fst).Nodup →
      sig ∈ l.map Prod.fst →
      List.Perm
        (((l.map (fun c => if c.1 = sig then (c.1, c.2 ++ [key]) else c)).map
          Prod.snd).flatten)
        (((l.map Prod.snd).flatten) ++ [key])
  | [], _, hm => by simp at hm
  | c :: t, hnd, hm => by
    rw [List.map_cons] at hnd
    have hc1 := (List.nodup_cons.mp hnd).1
    have hnd2 := (List.nodup_cons.mp hnd).2
    by_cases h : c.1 = sig
    · subst h
      rw [List.map_cons, if_pos rfl, map_updEq_of_not_mem key c.1 t hc1]
      simp only [List.map_cons, List.flatten_cons]
      rw [List.append_assoc, List.append_assoc]
      exact List.Perm.append_left c.2 List.perm_append_comm
    · have hmt : sig ∈ t.map Prod.fst := by
        rcases List.mem_cons.mp hm with h1 | h1
        · exact absurd h1.symm h
        · exact h1
      rw [List.map_cons, if_neg h]
      simp only [List.map_cons, List.flatten_cons]
      rw [List.append_assoc]
      exact List.Perm.append_left c.2 (flatten_map_upd key sig t hnd2 hmt)

lemma flatten_insertEq (acc : List (List Nat × List Nat)) (key : Nat) (sig : List Nat)
    (h : (acc.map Prod.fst).Nodup) :
    List.Perm (((insertEq acc key sig).map Prod.snd).flatten)
      (((acc.map Prod.snd).flatten) ++ [key]) := by
  unfold insertEq
  split
  · exact flatten_map_upd key sig acc h (by assumption)
  · simp only [List.map_append, List.flatten_append, List.map_cons, List.map_nil,
      List.flatten_cons, List.flatten_nil, List.append_nil]
    exact List.Perm.refl _

lemma cec_foldl_flatten (m : List (Nat × List Nat)) :
    ∀ acc : List (List Nat × List Nat), (acc.map Prod.fst).Nodup →
      List.Perm
        (((m.foldl (fun a kv => insertEq a kv.1 kv.2) acc).map Prod.snd).flatten)
        (((acc.map Prod.snd).flatten) ++ m.map Prod.fst) := by
  induction m with
  | nil =>
    intro acc _
    simp
  | cons kv t ih =>
    intro acc h
    rw [List.foldl_cons]
    refine (ih _ (insertEq_keys_nodup h)).trans ?_
    refine ((flatten_insertEq acc kv.1 kv.2 h).append_right _).trans ?_
    rw [List.append_assoc, List.singleton_append, List.map_cons]

lemma cec_flatten_perm (m : List (Nat × List Nat)) :
    List.Perm (((create_equivalence_class m).map Prod.snd).flatten)
      (m.map Prod.fst) := by
  have h := cec_foldl_flatten m [] (by simp)
  simpa [create_equivalence_class] using h

/-- C4: for a node→signature dict, the equivalence classes partition the
keys — concatenating all classes is a permutation of the key list (so
their union is the key set and every key occurs in exactly one class),
and distinct classes are pairwise disjoint. -/
theorem create_equivalence_class_partitions (m : List (Nat × List Nat))
    (h : (m.map Prod.fst).Nodup) :
    List.Perm (((create_equivalence_class m).map Prod.snd).flatten)
      (m.map Prod.fst) ∧
    ((create_equivalence_class m).map Prod.snd).Pairwise List.Disjoint := by
  have hp := cec_flatten_perm m
  refine ⟨hp, ?_⟩
  have hnd : (((create_equivalence_class m).map Prod.snd).flatten).Nodup :=
    hp.nodup_iff.mpr h
  exact (List.nodup_flatten.mp hnd).2

/-- Witness for C4 on the mapping `{5 ↦ [1], 6 ↦ [2], 7 ↦ [1]}`. -/
theorem create_equivalence_class_partitions_w :
    List.Perm
      (((create_equivalence_class [(5, [1]), (6, [2]), (7, [1])]).map Prod.snd).flatten)
      (([(5, [1]), (6, [2]), (7, [1])] : List (Nat × List Nat)).map Prod.fst) ∧
    ((create_equivalence_class [(5, [1]), (6, [2]), (7, [1])]).map Prod.snd).Pairwise
      List.Disjoint :=
  create_equivalence_class_partitions [(5, [1]), (6, [2]), (7, [1])] (by decide)

lemma bucketFold_eq (cs : List (List Nat × List Nat)) :
    ∀ (f0 : Bucket → List Nat) (b : Bucket),
      (cs.foldl (fun f c => bucketAdd f c.2.length) f0) b
        = f0 b ++ ((cs.map (fun c => c.2.length)).filter
            (fun s => decide (bucketOf s = b))) := by
  induction cs with
  | nil =>
    intro f0 b
    simp
  | cons c t ih =>
    intro f0 b
    rw [List.foldl_cons, ih, List.map_cons, List.filter_cons]
    by_cases hb : bucketOf c.2.length = b
    · simp [bucketAdd, hb]
    · simp [bucketAdd, hb, Ne.symm hb]

lemma can_set_size_eq (m : List (Nat × List Nat)) (b : Bucket) :
    can_set_size m b
      = ((create_equivalence_class m).map (fun c => c.2.length)).filter
          (fun s => decide (bucketOf s = b)) := by
  unfold can_set_size
  rw [bucketFold_eq]
  simp

lemma sum_bucket_filters (L : List Nat) :
    (allBuckets.map
      (fun b => (L.filter (fun s => decide (bucketOf s = b))).sum)).sum = L.sum := by
  induction L with
  | nil => simp [allBuckets]
  | cons s t ih =>
    simp only [allBuckets, List.map_cons, List.map_nil, List.sum_cons,
      List.sum_nil] at ih ⊢
    cases hb : bucketOf s <;> simp [List.filter_cons, hb] <;> omega

/-- C5: every equivalence class lands in exactly the bucket chosen by its
cardinality (each bucket's list is the sizes filtered by `bucketOf`), and
the bucketed class sizes summed over the five buckets equal the number of
nodes in the input mapping. -/
theorem create_buckets_conservation (m : List (Nat × List Nat))
    (h : (m.map Prod.fst).Nodup) :
    bucketTotal m = m.length ∧
    ∀ b : Bucket, can_set_size m b
      = ((create_equivalence_class m).map (fun c => c.2.length)).filter
          (fun s => decide (bucketOf s = b)) := by
  refine ⟨?_, can_set_size_eq m⟩
  unfold bucketTotal
  calc (allBuckets.map (fun b => (can_set_size m b).sum)).sum
      = (allBuckets.map (fun b =>
          (((create_equivalence_class m).map (fun c => c.2.length)).filter
            (fun s => decide (bucketOf s = b))).sum)).sum := by
        congr 1
        apply List.map_congr_left
        intro b _
        rw [can_set_size_eq]
    _ = ((create_equivalence_class m).map (fun c => c.2.length)).sum :=
        sum_bucket_filters _
    _ = (((create_equivalence_class m).map Prod.snd).map List.length).sum := by
        rw [List.map_map]
        rfl
    _ = (((create_equivalence_class m).map Prod.snd).flatten).length :=
        (List.length_flatten _).symm
    _ = (m.map Prod.fst).length := (cec_flatten_perm m).length_eq
    _ = m.length := List.length_map _ _

/-- Witness for C5 on the mapping `{5 ↦ [1], 6 ↦ [2], 7 ↦ [1]}`. -/
theorem create_buckets_conservation_w :
    bucketTotal [(5, [1]), (6, [2]), (7, [1])]
      = ([(5, [1]), (6, [2]), (7, [1])] : List (Nat × List Nat)).length :=
  (create_buckets_conservation [(5, [1]), (6, [2]), (7, [1])] (by decide)).1

lemma cec_const_aux (l : List Nat) (sig ns : List Nat) :
    (l.map (fun n => (n, sig))).foldl (fun a kv => insertEq a kv.1 kv.2) [(sig, ns)]
      = [(sig, ns ++ l)] := by
  induction l generalizing ns with
  | nil => simp
  | cons a t ih =>
    rw [List.map_cons, List.foldl_cons]
    have h1 : insertEq [(sig, ns)] a sig = [(sig, ns ++ [a])] := by
      simp [insertEq]
    rw [h1, ih]
    simp

/-- C6 (amended): for every graph with at least one node, level-0 vertex
refinement gives every node the signature `[1]`, and the equivalence
classes collapse to the single class holding all nodes of the graph. -/
theorem vertex_refinement_level0 (g : DiGraph) (h : g.nodes ≠ []) :
    (∀ n, signatureAt g 0 n = [1]) ∧
    create_equivalence_class (create_degree_list g 0) = [([1], g.nodes)] := by
  refine ⟨fun n => rfl, ?_⟩
  have hmap : (fun n => (n, signatureAt g 0 n)) = (fun n : Nat => (n, ([1] : List Nat))) := rfl
  obtain ⟨a, t, hat⟩ := List.exists_cons_of_ne_nil h
  unfold create_equivalence_class create_degree_list
  rw [hmap, hat, List.map_cons, List.foldl_cons]
  have h1 : insertEq [] a [1] = [([1], [a])] := by simp [insertEq]
  rw [h1, cec_const_aux]
  simp

/-- Witness for C6 on the directed graph 0→1. -/
theorem vertex_refinement_level0_w :
    create_equivalence_class (create_degree_list ⟨[0, 1], [(0, 1)]⟩ 0)
      = [([1], [0, 1])] :=
  (vertex_refinement_level0 ⟨[0, 1], [(0, 1)]⟩ (by decide)).2

lemma lookup_map_self (f : Nat → List Nat) (l : List Nat) (n : Nat) (hn : n ∈ l) :
    List.lookup n (l.map (fun x => (x, f x))) = some (f n) := by
  induction l with
  | nil => cases hn
  | cons a t ih =>
    by_cases hna : n = a
    · subst hna
      simp [List.lookup]
    · have hnt : n ∈ t := (List.mem_cons.mp hn).resolve_left hna
      have hb : (n == a) = false := beq_eq_false_iff_ne.mpr hna
      simp only [List.map_cons, List.lookup, hb]
      exact ih hnt

/-- C2 (amended): for level `i > 0`, the signature `create_degree_list`
assigns to a node `n` of the graph is the ascending-sorted sequence of
the TOTAL degrees (`g.degree`, in-degree plus out-degree) of the nodes in
the `(i-1)`-hop frontier computed by `create_neighbor_list`. -/
theorem create_degree_list_sorted_degrees (g : DiGraph) (i n : Nat)
    (hi : 0 < i) (hn : n ∈ g.nodes) :
    (signatureAt g i n).Sorted (· ≤ ·) ∧
    List.Perm (signatureAt g i n)
      ((create_neighbor_list g n (i - 1)).map (degree g)) ∧
    List.lookup n (create_degree_list g i) = some (signatureAt g i n) := by
  have hiz : ¬ i = 0 := Nat.pos_iff_ne_zero.mp hi
  refine ⟨?_, ?_, ?_⟩
  · rw [signatureAt, if_neg hiz]
    exact List.sorted_insertionSort _ _
  · rw [signatureAt, if_neg hiz]
    exact List.perm_insertionSort _ _
  · unfold create_degree_list
    exact lookup_map_self (signatureAt g i) g.nodes n hn

/-- Witness for C2 on the directed graph 0→1 at level 1, node 0. -/
theorem create_degree_list_sorted_degrees_w :
    List.lookup 0 (create_degree_list ⟨[0, 1], [(0, 1)]⟩ 1)
      = some (signatureAt ⟨[0, 1], [(0, 1)]⟩ 1 0) :=
  (create_degree_list_sorted_degrees ⟨[0, 1], [(0, 1)]⟩ 1 0 (by decide) (by decide)).2.2

end DataProtection
